import Mathlib

/-!
Verification development for the Kelly / Monte Carlo risk analysis script
(scripts/kelly-montecarlo.py).  Python floats are modelled as exact
rationals; where the script can produce IEEE special values (infinity, NaN)
we use the extended type `EF` that adjoins the special values and mirrors
IEEE arithmetic on them.
-/

namespace KellyMC

/-! ## Sample statistics (Phase 1 of the script) -/

/-- Model of np.mean on a list of rationals: sum divided by length. -/
def mean (xs : List ℚ) : ℚ := xs.sum / (xs.length : ℚ)

/-- Source line: wins = those sample values strictly greater than 0. -/
def wins (returns : List ℚ) : List ℚ := returns.filter (fun r => 0 < r)

/-- Source line: losses = those sample values less than or equal to 0. -/
def losses (returns : List ℚ) : List ℚ := returns.filter (fun r => r ≤ 0)

/-- Source line: win_rate = n_wins / N. -/
def win_rate (returns : List ℚ) : ℚ :=
  ((wins returns).length : ℚ) / (returns.length : ℚ)

/-- Source line: loss_rate = n_losses / N. -/
def loss_rate (returns : List ℚ) : ℚ :=
  ((losses returns).length : ℚ) / (returns.length : ℚ)

/-- Source line: avg_win = np.mean(wins) if wins else 0. -/
def avg_win (returns : List ℚ) : ℚ :=
  if (wins returns).isEmpty then 0 else mean (wins returns)

/-- Source line: avg_loss = np.mean(losses) if losses else 0. -/
def avg_loss (returns : List ℚ) : ℚ :=
  if (losses returns).isEmpty then 0 else mean (losses returns)

/-! ## Extended floats: rationals plus IEEE special values -/

/-- A Python float value as used by the Kelly computation: an exact finite
value, positive or negative infinity, or NaN. -/
inductive EF where
  | fin : ℚ → EF
  | pinf : EF
  | ninf : EF
  | nan : EF
deriving DecidableEq, Repr

/-- IEEE multiplication on `EF`. -/
def EF.mul : EF → EF → EF
  | .nan, _ => .nan
  | _, .nan => .nan
  | .fin a, .fin b => .fin (a * b)
  | .fin a, .pinf => if 0 < a then .pinf else if a < 0 then .ninf else .nan
  | .fin a, .ninf => if 0 < a then .ninf else if a < 0 then .pinf else .nan
  | .pinf, .fin b => if 0 < b then .pinf else if b < 0 then .ninf else .nan
  | .ninf, .fin b => if 0 < b then .ninf else if b < 0 then .pinf else .nan
  | .pinf, .pinf => .pinf
  | .pinf, .ninf => .ninf
  | .ninf, .pinf => .ninf
  | .ninf, .ninf => .pinf

/-- IEEE subtraction on `EF`. -/
def EF.sub : EF → EF → EF
  | .nan, _ => .nan
  | _, .nan => .nan
  | .fin a, .fin b => .fin (a - b)
  | .pinf, .fin _ => .pinf
  | .ninf, .fin _ => .ninf
  | .fin _, .pinf => .ninf
  | .fin _, .ninf => .pinf
  | .pinf, .pinf => .nan
  | .pinf, .ninf => .pinf
  | .ninf, .pinf => .ninf
  | .ninf, .ninf => .nan

/-- IEEE division on `EF` (sign of zero ignored; the script never divides by
a finite zero on the modelled paths). -/
def EF.div : EF → EF → EF
  | .nan, _ => .nan
  | _, .nan => .nan
  | .fin a, .fin b =>
      if b = 0 then (if a = 0 then .nan else if 0 < a then .pinf else .ninf)
      else .fin (a / b)
  | .fin _, .pinf => .fin 0
  | .fin _, .ninf => .fin 0
  | .pinf, .fin b => if 0 ≤ b then .pinf else .ninf
  | .ninf, .fin b => if 0 ≤ b then .ninf else .pinf
  | _, _ => .nan

/-- IEEE strict comparison on `EF`: any comparison with NaN is false. -/
def EF.lt : EF → EF → Bool
  | .nan, _ => false
  | _, .nan => false
  | .fin a, .fin b => decide (a < b)
  | .fin _, .pinf => true
  | .pinf, .fin _ => false
  | .ninf, .fin _ => true
  | .fin _, .ninf => false
  | .ninf, .pinf => true
  | .pinf, .ninf => false
  | .pinf, .pinf => false
  | .ninf, .ninf => false

/-! ## Kelly criterion (Phase 2, lines 126-129 of the script) -/

/-- Source line 128: b = abs(avg_win / avg_loss) if avg_loss != 0 else float of inf. -/
def bEF (returns : List ℚ) : EF :=
  if avg_loss returns = 0 then EF.pinf
  else EF.fin |avg_win returns / avg_loss returns|

/-- Source line 129: kelly_full = (p * b - q) / b if b > 0 else 0, computed in
float arithmetic (so an infinite b flows into the formula). -/
def kelly_fullEF (returns : List ℚ) : EF :=
  if (EF.fin 0).lt (bEF returns) then
    (((EF.fin (win_rate returns)).mul (bEF returns)).sub
        (EF.fin (1 - win_rate returns))).div (bEF returns)
  else EF.fin 0

/-- The payoff b on the non-degenerate path, where avg_loss is nonzero. -/
def payoffB (returns : List ℚ) : ℚ := |avg_win returns / avg_loss returns|

/-- Source line 135: edge = p*b - q. -/
def edge (returns : List ℚ) : ℚ :=
  win_rate returns * payoffB returns - (1 - win_rate returns)

/-- The kelly_full value on the non-degenerate path, as an exact rational. -/
def kelly_full (returns : List ℚ) : ℚ :=
  if 0 < payoffB returns then edge returns / payoffB returns else 0

/-! ## Monte Carlo engine (`run_mc_fast`, lines 206-252) -/

/-- Per-path state: `bankrolls[i]`, `bankrupt[i]`, `min_br[i]`. -/
structure PathState where
  bankroll : ℚ
  bankrupt : Bool
  minBr : ℚ
deriving DecidableEq, Repr

/-- One trade step of the vectorized loop, for one path:
`still_alive = ~bankrupt & (bankrolls >= pos_size)`;
`bankrolls[still_alive] += pnl`;
`bankrupt |= ~bankrupt & (bankrolls < pos_size)`;
`min_br[~bankrupt] = minimum(min_br, bankrolls)`. -/
def stepPath (posSize pnl : ℚ) (s : PathState) : PathState :=
  let br := if s.bankrupt = false ∧ posSize ≤ s.bankroll then s.bankroll + pnl
            else s.bankroll
  let bk := s.bankrupt || decide (br < posSize)
  { bankroll := br
    bankrupt := bk
    minBr := if bk then s.minBr else min s.minBr br }

/-- Fold a path state through a sequence of per-trade pnls. -/
def runPath (posSize : ℚ) (s : PathState) (pnls : List ℚ) : PathState :=
  pnls.foldl (fun st pnl => stepPath posSize pnl st) s

/-- Initial state of every path: `bankrolls = initial_br`, `bankrupt = False`,
`min_br = initial_br`. -/
def initState (initBr : ℚ) : PathState := ⟨initBr, false, initBr⟩

/-- Per-path pnls: the entry at t is returns at the sampled index, times
pos_size, for one row of sampled indices. -/
def pathPnls (returns : List ℚ) (posSize : ℚ) (row : List ℕ) : List ℚ :=
  row.map (fun j => returns.getD j 0 * posSize)

/-- Final states of all paths after `n_trades` steps; `idx` is the
pre-generated index matrix of shape `(n_sims, n_trades)`. -/
def finalStates (initBr posSize : ℚ) (returns : List ℚ)
    (idx : List (List ℕ)) : List PathState :=
  idx.map (fun row => runPath posSize (initState initBr) (pathPnls returns posSize row))

/-- Terminal zeroing of absorbed paths, source line 230: the terminal
bankroll reported for a path is 0 when bankrupt, the final balance else. -/
def terminalBankroll (s : PathState) : ℚ := if s.bankrupt then 0 else s.bankroll

/-- Model of np.mean of a boolean array: fraction of `true` entries. -/
def boolMean (bs : List Bool) : ℚ :=
  ((bs.map fun b => if b then (1 : ℚ) else 0).sum) / (bs.length : ℚ)

/-- Insertion of one element into a sorted list (for `np.percentile`). -/
def insertSorted (x : ℚ) : List ℚ → List ℚ
  | [] => [x]
  | y :: ys => if x ≤ y then x :: y :: ys else y :: insertSorted x ys

/-- Ascending sort. -/
def sortQ (xs : List ℚ) : List ℚ := xs.foldr insertSorted []

/-- Model of np.percentile with linear interpolation: position
h = (n-1)*q/100, interpolating between neighbouring order statistics. -/
def percentile (xs : List ℚ) (q : ℚ) : ℚ :=
  let sorted := sortQ xs
  let h : ℚ := ((xs.length : ℚ) - 1) * q / 100
  let i := (⌊h⌋).toNat
  let x0 := sorted.getD i 0
  let x1 := sorted.getD (i + 1) x0
  x0 + (h - (⌊h⌋ : ℚ)) * (x1 - x0)

/-- Model of np.median: the 50th percentile with linear interpolation. -/
def median (xs : List ℚ) : ℚ := percentile xs 50

/-- The dictionary returned by `run_mc_fast`. -/
structure SimResult where
  p_bankruptcy : ℚ
  p_profit : ℚ
  p_double : ℚ
  median : ℚ
  mean : ℚ
  p5 : ℚ
  p95 : ℚ
deriving DecidableEq, Repr

/-- The simulation run_mc_fast, given the pre-generated index matrix. -/
def run_mc (initBr posSize : ℚ) (returns : List ℚ)
    (idx : List (List ℕ)) : SimResult :=
  let finals := finalStates initBr posSize returns idx
  let terms := finals.map terminalBankroll
  { p_bankruptcy := boolMean (finals.map (fun f => f.bankrupt))
    p_profit := boolMean (terms.map (fun x => decide (initBr < x)))
    p_double := boolMean (terms.map (fun x => decide (initBr * 2 ≤ x)))
    median := median terms
    mean := mean terms
    p5 := percentile terms 5
    p95 := percentile terms 95 }

/-! ## Scenario transforms (Phase 4) -/

/-- Scenario A (lines 284-287): copy the sample and overwrite every entry
below -0.90 with -0.50. -/
def returns_a (returns : List ℚ) : List ℚ :=
  returns.map (fun r => if r < -(9/10) then -(1/2) else r)

/-- Model of drawing size elements with replacement, the draws supplied by
an index stream `pick`: the drawn element at i is xs at (pick i mod len). -/
def choiceList (xs : List ℚ) (size : ℕ) (pick : ℕ → ℕ) : List ℚ :=
  (List.range size).map (fun i => xs.getD (pick i % xs.length) 0)

/-- Tail-resample transform (lines 297-305 and 317-323): partition `returns`
at `thresh`, draw `max(1, int(N * target))` elements with replacement from
the tail partition and the remaining `N - n_rug` from the non-tail
partition, concatenating non-tail draws first. -/
def tailResample (returns : List ℚ) (thresh target : ℚ)
    (pickNon pickTail : ℕ → ℕ) : List ℚ :=
  let tail := returns.filter (fun r => r < thresh)
  let non := returns.filter (fun r => ¬ r < thresh)
  let nRug := max 1 ((⌊(returns.length : ℚ) * target⌋).toNat)
  choiceList non (returns.length - nRug) pickNon ++ choiceList tail nRug pickTail

/-! ## Risk of ruin (Phase 5) -/

/-- Source lines 292-294: rug_returns are the returns below -0.90, and
current_rug_rate is their fraction of the whole sample. -/
def rug_rate (returns : List ℚ) : ℚ :=
  ((returns.filter (fun r => r < -(9/10))).length : ℚ) / (returns.length : ℚ)

/-- The consecutive-loss report (lines 357-368): for
`n in range(1, int(bankroll/position_size) + 2)` the entry
`(n, rug_rate ** n, 1 / rug_rate ** n)`. -/
def consecReport (returns : List ℚ) (bankroll posSize : ℚ) :
    List (ℕ × ℚ × ℚ) :=
  let maxC := (⌊bankroll / posSize⌋).toNat
  (List.range' 1 (maxC + 1)).map
    (fun n => (n, rug_rate returns ^ n, 1 / rug_rate returns ^ n))

/-! ## Bankroll calibrator (lines 386-402) -/

/-- The 20-iteration binary search: state `(lo_br, hi_br, found)`; each
iteration probes `mid = (lo+hi)/2` and shrinks the bracket according to
whether the probed bankruptcy probability is strictly below `0.05`. -/
def calibrate (probe : ℚ → ℚ) : ℕ → ℚ → ℚ → Bool → ℚ × ℚ × Bool
  | 0, lo, hi, found => (lo, hi, found)
  | n + 1, lo, hi, found =>
      if probe ((lo + hi) / 2) < 1/20 then calibrate probe n lo ((lo + hi) / 2) true
      else calibrate probe n ((lo + hi) / 2) hi found

/-- The list of midpoints probed by `calibrate`, in order. -/
def calMids (probe : ℚ → ℚ) : ℕ → ℚ → ℚ → List ℚ
  | 0, _, _ => []
  | n + 1, lo, hi =>
      if probe ((lo + hi) / 2) < 1/20 then ((lo + hi) / 2) :: calMids probe n lo ((lo + hi) / 2)
      else ((lo + hi) / 2) :: calMids probe n ((lo + hi) / 2) hi

/-- The per-position-size search: `lo_br, hi_br = ps * 5, 5.0`, 20 binary
search iterations, `found` initialized to `False`. -/
def minSafeBankroll (probe : ℚ → ℚ) (ps : ℚ) : ℚ × ℚ × Bool :=
  calibrate probe 20 (ps * 5) 5 false

/-! ## Seeded random source (Phase 3 preamble) -/

/-- Modelled from the spec: the seeded random source (`np.random.seed` hands
the seed to NumPy's global generator, which is external to the repository;
the spec requires only "a seeded random source whose draw order is fully
determined by the seed and the loop structure").  Modelled as a linear
congruential generator on 64-bit words. -/
def lcg (s : ℕ) : ℕ := (6364136223846793005 * s + 1442695040888963407) % 2 ^ 64

/-- The `k`-th draw of the seeded stream. -/
def genStream (seed : ℕ) : ℕ → ℕ
  | 0 => lcg seed
  | k + 1 => lcg (genStream seed k)

/-- The pre-generated index matrix
`idx = np.random.randint(0, len(returns), size=(n_sims, n_trades))`,
consumed from the seeded stream in row-major order. -/
def genIdx (seed nSims nTrades len : ℕ) : List (List ℕ) :=
  (List.range nSims).map
    (fun i => (List.range nTrades).map
      (fun t => genStream seed (i * nTrades + t) % len))

/-- A full simulation run from a seed and a configuration: seed the stream,
pre-generate the index matrix, run `run_mc_fast`. -/
def run_mc_seeded (seed : ℕ) (initBr posSize : ℚ) (returns : List ℚ)
    (nSims nTrades : ℕ) : SimResult :=
  run_mc initBr posSize returns (genIdx seed nSims nTrades returns.length)

/-! ## Helper lemmas about the simulation loop -/

/-- A bankrupt path is left untouched by one step of the loop. -/
lemma stepPath_of_bankrupt (ps p : ℚ) (s : PathState) (h : s.bankrupt = true) :
    stepPath ps p s = s := by
  cases s with
  | mk br bk mn =>
    simp only at h
    simp [stepPath, h]

/-- A bankrupt path is left untouched by the whole rest of the loop. -/
lemma runPath_of_bankrupt (ps : ℚ) (s : PathState) (l : List ℚ)
    (h : s.bankrupt = true) : runPath ps s l = s := by
  induction l generalizing s with
  | nil => rfl
  | cons p rest ih =>
    have h1 : runPath ps s (p :: rest) = runPath ps (stepPath ps p s) rest := rfl
    rw [h1, stepPath_of_bankrupt ps p s h]
    exact ih s h

/-- An alive path whose post-update balance drops below the position size is
absorbed by that step. -/
lemma stepPath_absorb (ps p : ℚ) (s : PathState) (h1 : s.bankrupt = false)
    (h2 : ps ≤ s.bankroll) (h3 : s.bankroll + p < ps) :
    stepPath ps p s = ⟨s.bankroll + p, true, s.minBr⟩ := by
  simp [stepPath, h1, h2, h3]

/-- Summing the 0-1 indicator of a predicate counts its satisfying entries. -/
lemma sum_indicator_countP {α : Type} (f : α → Bool) (l : List α) :
    ((l.map (fun a => if f a then (1 : ℚ) else 0)).sum) = (l.countP f : ℚ) := by
  induction l with
  | nil => simp
  | cons a t ih =>
    by_cases h : f a = true
    · simp [h, ih, List.countP_cons]
      ring
    · simp [h, ih, List.countP_cons]

/-- The mean of a mapped boolean array is the satisfying fraction. -/
lemma boolMean_map {α : Type} (f : α → Bool) (l : List α) :
    boolMean (l.map f) = (l.countP f : ℚ) / (l.length : ℚ) := by
  unfold boolMean
  rw [List.length_map, List.map_map]
  have h : ((fun b => if b then (1 : ℚ) else 0) ∘ f)
      = fun a => if f a then (1 : ℚ) else 0 := rfl
  rw [h, sum_indicator_countP]

/-- Claim C1: in `run_mc_fast`, a path whose post-update bankroll falls below
the position size is marked bankrupt at that step, its bankroll stays frozen
at that value for every remaining step of the loop, its terminal bankroll is
reported as exactly 0, and `probabilityBankrupt` is the fraction of the
`numPaths` paths marked bankrupt by the final step (every absorbed path
reporting terminal bankroll 0). -/
theorem C1_absorbing_bankruptcy (posSize pnl : ℚ) (rest : List ℚ)
    (s : PathState) (h1 : s.bankrupt = false) (h2 : posSize ≤ s.bankroll)
    (h3 : s.bankroll + pnl < posSize) :
    (stepPath posSize pnl s).bankrupt = true
    ∧ (runPath posSize s (pnl :: rest)).bankrupt = true
    ∧ (runPath posSize s (pnl :: rest)).bankroll = s.bankroll + pnl
    ∧ terminalBankroll (runPath posSize s (pnl :: rest)) = 0
    ∧ ∀ (initBr : ℚ) (returns : List ℚ) (idx : List (List ℕ)),
        (run_mc initBr posSize returns idx).p_bankruptcy
          = ((finalStates initBr posSize returns idx).countP
                (fun f => f.bankrupt) : ℚ) / (idx.length : ℚ)
        ∧ ∀ f ∈ finalStates initBr posSize returns idx,
            f.bankrupt = true → terminalBankroll f = 0 := by
  have hstep := stepPath_absorb posSize pnl s h1 h2 h3
  have hrun : runPath posSize s (pnl :: rest)
      = (⟨s.bankroll + pnl, true, s.minBr⟩ : PathState) := by
    have hc : runPath posSize s (pnl :: rest)
        = runPath posSize (stepPath posSize pnl s) rest := rfl
    rw [hc, hstep, runPath_of_bankrupt]
    rfl
  refine ⟨by rw [hstep], by rw [hrun], by rw [hrun], by rw [hrun]; rfl, ?_⟩
  intro initBr returns idx
  constructor
  · have hpb : (run_mc initBr posSize returns idx).p_bankruptcy
        = boolMean ((finalStates initBr posSize returns idx).map
            (fun f => f.bankrupt)) := rfl
    rw [hpb, boolMean_map]
    rw [show (finalStates initBr posSize returns idx).length = idx.length from
      List.length_map _ _]
  · intro f _ hf
    simp [terminalBankroll, hf]

/-- Witness for C1 at a concrete path: bankroll 1, position size 1, a trade
losing 2, then one more trade. -/
theorem C1_witness :
    (runPath 1 ⟨1, false, 1⟩ [-2, 5]).bankrupt = true
    ∧ (runPath 1 ⟨1, false, 1⟩ [-2, 5]).bankroll = 1 + -2
    ∧ terminalBankroll (runPath 1 ⟨1, false, 1⟩ [-2, 5]) = 0 :=
  ⟨(C1_absorbing_bankruptcy 1 (-2) [5] ⟨1, false, 1⟩ rfl (le_refl 1)
      (by norm_num)).2.1,
   (C1_absorbing_bankruptcy 1 (-2) [5] ⟨1, false, 1⟩ rfl (le_refl 1)
      (by norm_num)).2.2.1,
   (C1_absorbing_bankruptcy 1 (-2) [5] ⟨1, false, 1⟩ rfl (le_refl 1)
      (by norm_num)).2.2.2.1⟩

/-- A path fed only nonnegative pnls stays alive and its bankroll never
drops below its starting value. -/
lemma runPath_alive (ps : ℚ) (l : List ℚ) : ∀ s : PathState,
    s.bankrupt = false → ps ≤ s.bankroll → (∀ p ∈ l, 0 ≤ p) →
    (runPath ps s l).bankrupt = false
    ∧ s.bankroll ≤ (runPath ps s l).bankroll := by
  induction l with
  | nil => intro s h1 h2 _; exact ⟨h1, le_refl _⟩
  | cons p rest ih =>
    intro s h1 h2 hl
    have hp : 0 ≤ p := hl p (List.mem_cons_self p rest)
    have hnb : ¬ (s.bankroll + p < ps) := by linarith
    have hstep : stepPath ps p s
        = ⟨s.bankroll + p, false, min s.minBr (s.bankroll + p)⟩ := by
      simp [stepPath, h1, h2, hnb]
    have hc : runPath ps s (p :: rest)
        = runPath ps (stepPath ps p s) rest := rfl
    rw [hc, hstep]
    have hrec := ih ⟨s.bankroll + p, false, min s.minBr (s.bankroll + p)⟩ rfl
      (by show ps ≤ s.bankroll + p; linarith)
      (fun x hx => hl x (List.mem_cons_of_mem _ hx))
    refine ⟨hrec.1, le_trans (by show s.bankroll ≤ s.bankroll + p; linarith)
      hrec.2⟩

/-- All sampled pnls are nonnegative when the sample is all-positive and the
position size is positive (out-of-range indices contribute the default 0). -/
lemma pathPnls_nonneg (returns : List ℚ) (posSize : ℚ) (row : List ℕ)
    (hpos : ∀ r ∈ returns, 0 < r) (hps : 0 < posSize) :
    ∀ p ∈ pathPnls returns posSize row, 0 ≤ p := by
  intro p hp
  obtain ⟨j, _, rfl⟩ := List.mem_map.mp hp
  by_cases hj : j < returns.length
  · have hmem : returns.getD j 0 ∈ returns := by
      rw [List.getD_eq_getElem returns 0 hj]
      exact List.getElem_mem hj
    exact le_of_lt (mul_pos (hpos _ hmem) hps)
  · rw [List.getD_eq_default returns 0 (le_of_not_lt hj)]
    simp

/-- Claim C6: with an all-positive return sample and a valid configuration
(positionSize positive and at most the initial bankroll), the simulation's
`probabilityBankrupt` is exactly 0 and no path is ever marked bankrupt. -/
theorem C6_all_positive_no_bankruptcy (initBr posSize : ℚ)
    (returns : List ℚ) (idx : List (List ℕ))
    (hpos : ∀ r ∈ returns, 0 < r) (hps : 0 < posSize)
    (hbr : posSize ≤ initBr) :
    (run_mc initBr posSize returns idx).p_bankruptcy = 0
    ∧ ∀ f ∈ finalStates initBr posSize returns idx, f.bankrupt = false := by
  have hall : ∀ f ∈ finalStates initBr posSize returns idx,
      f.bankrupt = false := by
    intro f hf
    obtain ⟨row, _, rfl⟩ := List.mem_map.mp hf
    exact (runPath_alive posSize _ (initState initBr) rfl hbr
      (pathPnls_nonneg returns posSize row hpos hps)).1
  refine ⟨?_, hall⟩
  have hpb : (run_mc initBr posSize returns idx).p_bankruptcy
      = boolMean ((finalStates initBr posSize returns idx).map
          (fun f => f.bankrupt)) := rfl
  rw [hpb, boolMean_map]
  have hz : (finalStates initBr posSize returns idx).countP
      (fun f => f.bankrupt) = 0 := by
    rw [List.countP_eq_zero]
    intro f hf
    simp [hall f hf]
  rw [hz]
  simp

/-- Witness for C6: a one-value all-positive sample, two paths. -/
theorem C6_witness :
    (run_mc 1 1 [1/2] [[0, 0], [0]]).p_bankruptcy = 0 :=
  (C6_all_positive_no_bankruptcy 1 1 [1/2] [[0, 0], [0]]
    (by intro r hr; simp at hr; rw [hr]; norm_num)
    (by norm_num) (le_refl 1)).1

/-- One step preserves the invariant that an alive path has bankroll at
least the position size, and that the tracked minimum never drops below the
position size. -/
lemma stepPath_minBr_inv (ps p : ℚ) (s : PathState)
    (h1 : s.bankrupt = false → ps ≤ s.bankroll) (h2 : ps ≤ s.minBr) :
    ((stepPath ps p s).bankrupt = false → ps ≤ (stepPath ps p s).bankroll)
    ∧ ps ≤ (stepPath ps p s).minBr := by
  cases s with
  | mk br0 bk0 mn0 =>
    cases bk0 with
    | true =>
      rw [stepPath_of_bankrupt ps p ⟨br0, true, mn0⟩ rfl]
      exact ⟨h1, h2⟩
    | false =>
      have hbr0 : ps ≤ br0 := h1 rfl
      by_cases hlt : br0 + p < ps
      · have hs : stepPath ps p ⟨br0, false, mn0⟩ = ⟨br0 + p, true, mn0⟩ := by
          simp [stepPath, hbr0, hlt]
        rw [hs]
        exact ⟨fun hc => Bool.noConfusion hc, h2⟩
      · have hs : stepPath ps p ⟨br0, false, mn0⟩
            = ⟨br0 + p, false, min mn0 (br0 + p)⟩ := by
          simp [stepPath, hbr0, hlt]
        rw [hs]
        exact ⟨fun _ => le_of_not_lt hlt, le_min h2 (le_of_not_lt hlt)⟩

/-- The invariant of `stepPath_minBr_inv` holds after any run. -/
lemma runPath_minBr_inv (ps : ℚ) (l : List ℚ) : ∀ s : PathState,
    (s.bankrupt = false → ps ≤ s.bankroll) → ps ≤ s.minBr →
    ((runPath ps s l).bankrupt = false → ps ≤ (runPath ps s l).bankroll)
    ∧ ps ≤ (runPath ps s l).minBr := by
  induction l with
  | nil => intro s h1 h2; exact ⟨h1, h2⟩
  | cons p rest ih =>
    intro s h1 h2
    have hstep := stepPath_minBr_inv ps p s h1 h2
    have hc : runPath ps s (p :: rest)
        = runPath ps (stepPath ps p s) rest := rfl
    rw [hc]
    exact ih (stepPath ps p s) hstep.1 hstep.2

/-- Claim C9: provided the initial bankroll is at least the position size,
every path's tracked minimum bankroll stays at least the position size at
every step (the sub-positionSize balance that triggers absorption is never
recorded in `min_br`), and an alive path's bankroll is always at least the
position size. -/
theorem C9_min_bankroll_invariant (posSize initBr : ℚ) (pnls : List ℚ)
    (h : posSize ≤ initBr) :
    posSize ≤ (runPath posSize (initState initBr) pnls).minBr
    ∧ ((runPath posSize (initState initBr) pnls).bankrupt = false →
        posSize ≤ (runPath posSize (initState initBr) pnls).bankroll) := by
  have hrun := runPath_minBr_inv posSize pnls (initState initBr)
    (fun _ => h) h
  exact ⟨hrun.2, hrun.1⟩

/-- Witness for C9: bankroll 2, position size 1, a catastrophic trade. -/
theorem C9_witness :
    (1 : ℚ) ≤ 2
    ∧ 1 ≤ (runPath 1 (initState 2) [-10]).minBr :=
  ⟨by norm_num, (C9_min_bankroll_invariant 1 2 [-10] (by norm_num)).1⟩

/-- Claim C7: two runs of the simulation with identical seed and identical
configuration (initial bankroll, position size, return sample, number of
paths, number of trades) produce identical `SimResult` values. -/
theorem C7_determinism (seedA seedB : ℕ) (initBrA initBrB posSizeA posSizeB : ℚ)
    (returnsA returnsB : List ℚ) (nSimsA nSimsB nTradesA nTradesB : ℕ)
    (hs : seedA = seedB) (hbr : initBrA = initBrB) (hps : posSizeA = posSizeB)
    (hr : returnsA = returnsB) (hn : nSimsA = nSimsB)
    (ht : nTradesA = nTradesB) :
    run_mc_seeded seedA initBrA posSizeA returnsA nSimsA nTradesA
      = run_mc_seeded seedB initBrB posSizeB returnsB nSimsB nTradesB := by
  subst hs
  subst hbr
  subst hps
  subst hr
  subst hn
  subst ht
  rfl

/-- Witness for C7: two concrete runs from the same seed and configuration. -/
theorem C7_witness :
    run_mc_seeded 42 1 (1/2) [1/10, 2] 2 3
      = run_mc_seeded 42 1 (1/2) [1/10, 2] 2 3 :=
  C7_determinism 42 42 1 1 (1/2) (1/2) [1/10, 2] [1/10, 2] 2 2 3 3
    rfl rfl rfl rfl rfl rfl

/-- Counterexample for claim C2 as stated: on a sample with no losses, the
code produces the raw infinity sentinel for b and NaN for the Kelly
fraction, rather than a tagged degenerate result. -/
theorem C2_counterexample :
    bEF [1/2, 1/5] = EF.pinf ∧ kelly_fullEF [1/2, 1/5] = EF.nan := by
  have hal : avg_loss [1/2, 1/5] = 0 := by norm_num [avg_loss, losses]
  have hb : bEF [1/2, 1/5] = EF.pinf := by rw [bEF, if_pos hal]
  refine ⟨hb, ?_⟩
  have hwr : win_rate ([1/2, 1/5] : List ℚ) = 1 := by norm_num [win_rate, wins]
  rw [kelly_fullEF, hb, hwr]
  norm_num [EF.lt, EF.mul, EF.sub, EF.div]

/-- Claim C2 amended: whenever the loss partition is empty or has arithmetic
mean exactly 0, the code sets b to the raw float infinity, the guard b > 0
accepts it, and the Kelly fraction evaluates to NaN via (p*inf - q)/inf, so
the infinity is propagated into further arithmetic (no tagged degenerate
result exists in the code). -/
theorem C2_infinity_propagated (returns : List ℚ)
    (_hne : returns ≠ []) (h : avg_loss returns = 0) :
    bEF returns = EF.pinf ∧ kelly_fullEF returns = EF.nan := by
  have hb : bEF returns = EF.pinf := by simp [bEF, h]
  refine ⟨hb, ?_⟩
  unfold kelly_fullEF
  rw [hb]
  have hlt : (EF.fin 0).lt EF.pinf = true := rfl
  rw [if_pos hlt]
  have hw : 0 ≤ win_rate returns := by
    unfold win_rate
    positivity
  rcases eq_or_lt_of_le hw with hw0 | hw0
  · rw [← hw0]
    rfl
  · have hmul : (EF.fin (win_rate returns)).mul EF.pinf = EF.pinf := by
      simp [EF.mul, hw0]
    rw [hmul]
    rfl

/-- Witness for C2 amended: the two-element all-win sample. -/
theorem C2_witness :
    ([1/2, 1/5] : List ℚ) ≠ []
    ∧ avg_loss [1/2, 1/5] = 0
    ∧ kelly_fullEF [1/2, 1/5] = EF.nan :=
  ⟨by simp, by norm_num [avg_loss, losses],
   (C2_infinity_propagated [1/2, 1/5] (by simp)
      (by norm_num [avg_loss, losses])).2⟩

/-- A nonempty list of positives has positive mean. -/
lemma mean_pos_of_pos (xs : List ℚ) (hne : xs ≠ []) (h : ∀ x ∈ xs, 0 < x) :
    0 < mean xs := by
  unfold mean
  apply div_pos (List.sum_pos xs h hne)
  exact_mod_cast List.length_pos.mpr hne

/-- With at least one winning trade, the average win is positive. -/
lemma avg_win_pos (returns : List ℚ) (hw : wins returns ≠ []) :
    0 < avg_win returns := by
  unfold avg_win
  rw [if_neg (by simpa [List.isEmpty_iff] using hw)]
  refine mean_pos_of_pos _ hw ?_
  intro x hx
  have hmem := List.mem_filter.mp hx
  simpa using hmem.2

/-- With a win and a nonzero average loss, the payoff ratio is positive. -/
lemma payoffB_pos (returns : List ℚ) (hw : wins returns ≠ [])
    (hl : avg_loss returns ≠ 0) : 0 < payoffB returns := by
  unfold payoffB
  rw [abs_pos]
  exact div_ne_zero (ne_of_gt (avg_win_pos returns hw)) hl

/-- Claim C8: for a non-degenerate sample (some win, nonzero average loss)
the float computation returns the finite rational Kelly fraction, and its
sign equals the sign of the edge p*b - q. -/
theorem C8_kelly_sign (returns : List ℚ)
    (hw : wins returns ≠ []) (hl : avg_loss returns ≠ 0) :
    kelly_fullEF returns = EF.fin (kelly_full returns)
    ∧ (0 < kelly_full returns ↔ 0 < edge returns)
    ∧ (kelly_full returns = 0 ↔ edge returns = 0)
    ∧ (kelly_full returns < 0 ↔ edge returns < 0) := by
  have hb : 0 < payoffB returns := payoffB_pos returns hw hl
  have hbne : payoffB returns ≠ 0 := ne_of_gt hb
  have hbEF : bEF returns = EF.fin (payoffB returns) := by
    simp [bEF, hl, payoffB]
  have hkq : kelly_full returns = edge returns / payoffB returns := by
    unfold kelly_full
    rw [if_pos hb]
  have hEF : kelly_fullEF returns = EF.fin (kelly_full returns) := by
    unfold kelly_fullEF
    rw [hbEF]
    have hlt : (EF.fin 0).lt (EF.fin (payoffB returns)) = true := by
      simp [EF.lt, hb]
    rw [if_pos hlt]
    have hmul : (EF.fin (win_rate returns)).mul (EF.fin (payoffB returns))
        = EF.fin (win_rate returns * payoffB returns) := rfl
    have hsub : (EF.fin (win_rate returns * payoffB returns)).sub
        (EF.fin (1 - win_rate returns))
        = EF.fin (win_rate returns * payoffB returns
            - (1 - win_rate returns)) := rfl
    rw [hmul, hsub]
    have hdiv : (EF.fin (win_rate returns * payoffB returns
        - (1 - win_rate returns))).div (EF.fin (payoffB returns))
        = EF.fin ((win_rate returns * payoffB returns
            - (1 - win_rate returns)) / payoffB returns) := by
      simp [EF.div, hbne]
    rw [hdiv, hkq]
    rfl
  refine ⟨hEF, ?_, ?_, ?_⟩
  · rw [hkq]
    constructor
    · intro hpos
      have := mul_pos hpos hb
      rwa [div_mul_cancel₀ _ hbne] at this
    · intro hpos
      exact div_pos hpos hb
  · rw [hkq]
    rw [div_eq_zero_iff]
    simp [hbne]
  · rw [hkq]
    constructor
    · intro hneg
      by_contra hc
      have := div_nonneg (le_of_not_lt hc) (le_of_lt hb)
      linarith
    · intro hneg
      exact div_neg_of_neg_of_pos hneg hb

/-- Witness for C8: one win of 100 percent, one loss of 50 percent. -/
theorem C8_witness :
    wins [1, -1/2] ≠ []
    ∧ avg_loss [1, -1/2] ≠ 0
    ∧ kelly_fullEF [1, -1/2] = EF.fin (kelly_full [1, -1/2]) :=
  ⟨by norm_num [wins], by norm_num [avg_loss, losses, mean],
   (C8_kelly_sign [1, -1/2] (by norm_num [wins])
      (by norm_num [avg_loss, losses, mean])).1⟩

/-- Counterexample for claim C3 as stated: a source value of -0.70 lies
below the claimed floor -0.50 but above the code's replacement threshold
-0.90, so it passes through unchanged and the transformed minimum is below
the floor. -/
theorem C3_counterexample :
    returns_a [-(7/10)] = [-(7/10)]
    ∧ ¬ (∀ x ∈ returns_a [-(7/10)], -(1/2) ≤ x) := by
  have h : returns_a [-(7/10)] = [-(7/10)] := by
    norm_num [returns_a]
  refine ⟨h, ?_⟩
  intro hall
  have := hall (-(7/10)) (by rw [h]; simp)
  linarith

/-- Claim C3 amended: the Scenario A transform replaces exactly the values
strictly below -0.90 with -0.50 and leaves every value at or above -0.90 (in
particular every value above the floor -0.50) unchanged; consequently every
transformed value is at least -0.90, but values in the band from -0.90 up to
-0.50 pass through, so the claimed bound min(transformed) at least -0.50
fails in general. -/
theorem C3_cap_below_threshold (returns : List ℚ) :
    (∀ x ∈ returns_a returns, -(9/10) ≤ x)
    ∧ (∀ k : ℕ, ¬ returns.getD k 0 < -(9/10) →
        (returns_a returns).getD k 0 = returns.getD k 0)
    ∧ (∀ k : ℕ, returns.getD k 0 < -(9/10) →
        (returns_a returns).getD k 0 = -(1/2)) := by
  have hget : ∀ k : ℕ, (returns_a returns).getD k 0
      = ((returns[k]?).map (fun r => if r < -(9/10) then -(1/2) else r)).getD 0 := by
    intro k
    rw [returns_a, List.getD_eq_getElem?_getD, List.getElem?_map]
  refine ⟨?_, ?_, ?_⟩
  · intro x hx
    obtain ⟨r, _, rfl⟩ := List.mem_map.mp hx
    by_cases hr : r < -(9/10)
    · rw [if_pos hr]
      norm_num
    · rw [if_neg hr]
      linarith [le_of_not_lt hr]
  · intro k hk
    rw [hget k, List.getD_eq_getElem?_getD]
    cases hcell : returns[k]? with
    | none => rfl
    | some r =>
      rw [List.getD_eq_getElem?_getD, hcell] at hk
      simp only [hcell, Option.map_some', Option.getD_some]
      exact if_neg (by simpa using hk)
  · intro k hk
    rw [hget k]
    cases hcell : returns[k]? with
    | none =>
      rw [List.getD_eq_getElem?_getD, hcell] at hk
      norm_num at hk
    | some r =>
      rw [List.getD_eq_getElem?_getD, hcell] at hk
      simp only [Option.map_some', Option.getD_some]
      exact if_pos (by simpa using hk)

/-- Witness for C3 amended: a rug-sized loss is rewritten to -0.50 and an
in-band value is untouched. -/
theorem C3_witness :
    (((-19/20 : ℚ)) < -(9/10))
    ∧ (returns_a [-(19/20), -(7/10)]).getD 0 0 = -(1/2)
    ∧ (returns_a [-(19/20), -(7/10)]).getD 1 0 = -(7/10) :=
  ⟨by norm_num,
   (C3_cap_below_threshold [-(19/20), -(7/10)]).2.2 0 (by norm_num [List.getD]),
   (C3_cap_below_threshold [-(19/20), -(7/10)]).2.1 1 (by norm_num [List.getD])⟩

/-- Counterexample for claim C5 as stated: on a sample with a mild loss and
no rug-sized loss, the reported probability of one consecutive loss is the
rug rate 1/4, not the loss rate 1/2 (the fraction of trades with return at
most 0). -/
theorem C5_counterexample :
    consecReport [-(19/20), -(1/2), 1/2, 1/2] 1 1
      = [(1, 1/4, 4), (2, 1/16, 16)]
    ∧ loss_rate [-(19/20), -(1/2), 1/2, 1/2] = 1/2
    ∧ ((1 : ℚ)/4) ≠ ((1/2 : ℚ)) ^ 1 := by
  refine ⟨?_, ?_, by norm_num⟩
  · have hr : rug_rate [-(19/20), -(1/2), 1/2, 1/2] = 1/4 := by
      norm_num [rug_rate]
    have hm : (⌊(1 : ℚ) / 1⌋).toNat = 1 := by norm_num
    rw [consecReport, hm, hr]
    norm_num [List.range']
  · norm_num [loss_rate, losses]

/-- Claim C5 amended: the consecutive-loss report contains exactly the
entries for n = 1 up to floor(bankroll/positionSize)+1, each reporting the
probability rugRate^n and the frequency 1/rugRate^n, where rugRate is the
fraction of trades with return strictly below -0.90 (not the fraction of
trades with return at most 0). -/
theorem C5_rug_rate_powers (returns : List ℚ) (bankroll posSize : ℚ)
    (n : ℕ) (pr fr : ℚ) :
    (n, pr, fr) ∈ consecReport returns bankroll posSize ↔
      1 ≤ n ∧ n ≤ (⌊bankroll / posSize⌋).toNat + 1
      ∧ pr = rug_rate returns ^ n ∧ fr = 1 / rug_rate returns ^ n := by
  rw [consecReport, List.mem_map]
  constructor
  · rintro ⟨a, ha, heq⟩
    rw [List.mem_range'_1] at ha
    obtain ⟨h1, h2⟩ := ha
    obtain ⟨rfl, rfl, rfl⟩ := Prod.mk.injEq .. ▸ heq
    · refine ⟨h1, by omega, rfl, rfl⟩
  · rintro ⟨h1, h2, rfl, rfl⟩
    refine ⟨n, ?_, rfl⟩
    rw [List.mem_range'_1]
    omega

/-- The calibrator probes exactly one midpoint per iteration. -/
lemma calMids_length (probe : ℚ → ℚ) : ∀ (n : ℕ) (lo hi : ℚ),
    (calMids probe n lo hi).length = n := by
  intro n
  induction n with
  | zero => intro lo hi; rfl
  | succ n ih =>
    intro lo hi
    by_cases h : probe ((lo + hi) / 2) < 1/20
    · rw [calMids, if_pos h, List.length_cons, ih]
    · rw [calMids, if_neg h, List.length_cons, ih]

/-- The search succeeds exactly when the initial flag was set or one probed
midpoint met the target. -/
lemma calibrate_found_iff (probe : ℚ → ℚ) : ∀ (n : ℕ) (lo hi : ℚ) (f : Bool),
    ((calibrate probe n lo hi f).2.2 = true ↔
      (f = true ∨ ∃ m ∈ calMids probe n lo hi, probe m < 1/20)) := by
  intro n
  induction n with
  | zero =>
    intro lo hi f
    simp [calibrate, calMids]
  | succ n ih =>
    intro lo hi f
    by_cases h : probe ((lo + hi) / 2) < 1/20
    · rw [calibrate, if_pos h, ih, calMids, if_pos h]
      constructor
      · intro _
        exact Or.inr ⟨(lo + hi) / 2, List.mem_cons_self _ _, h⟩
      · intro _
        exact Or.inl rfl
    · rw [calibrate, if_neg h, ih, calMids, if_neg h]
      constructor
      · rintro (hf | ⟨m, hm, hpm⟩)
        · exact Or.inl hf
        · exact Or.inr ⟨m, List.mem_cons_of_mem _ hm, hpm⟩
      · rintro (hf | ⟨m, hm, hpm⟩)
        · exact Or.inl hf
        · rcases List.mem_cons.mp hm with rfl | hm'
          · exact absurd hpm h
          · exact Or.inr ⟨m, hm', hpm⟩

/-- When no probed midpoint meets the target, the upper bound is never
moved. -/
lemma calibrate_hi_of_none (probe : ℚ → ℚ) : ∀ (n : ℕ) (lo hi : ℚ) (f : Bool),
    (∀ m ∈ calMids probe n lo hi, ¬ probe m < 1/20) →
    (calibrate probe n lo hi f).2.1 = hi := by
  intro n
  induction n with
  | zero => intro lo hi f _; rfl
  | succ n ih =>
    intro lo hi f hnone
    have h : ¬ probe ((lo + hi) / 2) < 1/20 := by
      apply hnone
      simp only [calMids]
      by_cases hc : probe ((lo + hi) / 2) < 1/20
      · rw [if_pos hc]; exact List.mem_cons_self _ _
      · rw [if_neg hc]; exact List.mem_cons_self _ _
    rw [calibrate, if_neg h]
    apply ih
    intro m hm
    apply hnone
    simp only [calMids, if_neg h]
    exact List.mem_cons_of_mem _ hm

/-- All probed midpoints stay inside the current bracket. -/
lemma calMids_mem_bracket (probe : ℚ → ℚ) : ∀ (n : ℕ) (lo hi : ℚ),
    lo ≤ hi → ∀ m ∈ calMids probe n lo hi, lo ≤ m ∧ m ≤ hi := by
  intro n
  induction n with
  | zero => intro lo hi _ m hm; simp [calMids] at hm
  | succ n ih =>
    intro lo hi hle m hm
    have hlo : lo ≤ (lo + hi) / 2 := by linarith
    have hhi : (lo + hi) / 2 ≤ hi := by linarith
    by_cases h : probe ((lo + hi) / 2) < 1/20
    · rw [calMids, if_pos h] at hm
      rcases List.mem_cons.mp hm with rfl | hm'
      · exact ⟨hlo, hhi⟩
      · have := ih lo ((lo + hi) / 2) hlo m hm'
        exact ⟨this.1, le_trans this.2 hhi⟩
    · rw [calMids, if_neg h] at hm
      rcases List.mem_cons.mp hm with rfl | hm'
      · exact ⟨hlo, hhi⟩
      · have := ih ((lo + hi) / 2) hi hhi m hm'
        exact ⟨le_trans hlo this.1, this.2⟩

/-- Claim C4: the calibrator performs exactly 20 binary-search probes, all
inside the bracket from 5*positionSize to 5.0; it ends in the found state
exactly when some probe's bankruptcy probability was strictly below the 5
percent target; and when no probe met the target the reported upper bound is
still the bracket's upper limit 5.0, i.e. the search reports no safe
bankroll within the searched range exactly when no probe met the target. -/
theorem C4_binary_search_calibrator (probe : ℚ → ℚ) (ps : ℚ)
    (h : ps * 5 ≤ 5) :
    (calMids probe 20 (ps * 5) 5).length = 20
    ∧ (∀ m ∈ calMids probe 20 (ps * 5) 5, ps * 5 ≤ m ∧ m ≤ 5)
    ∧ ((minSafeBankroll probe ps).2.2 = true ↔
        ∃ m ∈ calMids probe 20 (ps * 5) 5, probe m < 1/20)
    ∧ ((∀ m ∈ calMids probe 20 (ps * 5) 5, ¬ probe m < 1/20) →
        (minSafeBankroll probe ps).2.1 = 5) := by
  refine ⟨calMids_length probe 20 _ _, calMids_mem_bracket probe 20 _ _ h, ?_, ?_⟩
  · rw [minSafeBankroll, calibrate_found_iff]
    simp
  · intro hnone
    exact calibrate_hi_of_none probe 20 (ps * 5) 5 false hnone

/-- Witness for C4 at a probe that always reports 0 bankruptcy and position
size one half. -/
theorem C4_witness :
    ((1 : ℚ)/2) * 5 ≤ 5
    ∧ ((minSafeBankroll (fun _ => 0) (1/2)).2.2 = true ↔
        ∃ m ∈ calMids (fun _ => (0 : ℚ)) 20 ((1/2) * 5) 5,
          (fun _ => (0 : ℚ)) m < 1/20) :=
  ⟨by norm_num,
   (C4_binary_search_calibrator (fun _ => 0) (1/2) (by norm_num)).2.2.1⟩

/-- Drawing with replacement produces exactly the requested number of
elements. -/
lemma choiceList_length (xs : List ℚ) (size : ℕ) (pick : ℕ → ℕ) :
    (choiceList xs size pick).length = size := by
  simp [choiceList]

/-- Every element drawn with replacement from a nonempty list is a member of
that list. -/
lemma choiceList_mem (xs : List ℚ) (size : ℕ) (pick : ℕ → ℕ)
    (hxs : xs ≠ []) : ∀ x ∈ choiceList xs size pick, x ∈ xs := by
  intro x hx
  obtain ⟨i, _, rfl⟩ := List.mem_map.mp hx
  have hlen : 0 < xs.length := List.length_pos.mpr hxs
  have hmod : pick i % xs.length < xs.length := Nat.mod_lt _ hlen
  rw [List.getD_eq_getElem xs 0 hmod]
  exact List.getElem_mem hmod

/-- The tail draw count of the resampler. -/
def nRugOf (returns : List ℚ) (target : ℚ) : ℕ :=
  max 1 ((⌊(returns.length : ℚ) * target⌋).toNat)

/-- The tail draw count never exceeds the sample size when the target is a
proportion and the sample is nonempty. -/
lemma nRugOf_le (returns : List ℚ) (target : ℚ) (hne : returns ≠ [])
    (ht1 : target ≤ 1) : nRugOf returns target ≤ returns.length := by
  have h1 : 1 ≤ returns.length := List.length_pos.mpr hne
  have h2 : (⌊(returns.length : ℚ) * target⌋).toNat ≤ returns.length := by
    have hmul : (returns.length : ℚ) * target ≤ (returns.length : ℚ) := by
      nlinarith [Nat.cast_nonneg (α := ℚ) returns.length]
    have hfl : ⌊(returns.length : ℚ) * target⌋ ≤ (returns.length : ℤ) := by
      have := Int.floor_le_floor hmul
      simpa using this
    omega
  exact max_le h1 h2

/-- Claim C10: the tail-resampled sample has exactly the original length,
consisting of max(1, floor(N*target)) draws from the tail partition and the
remainder from the non-tail partition; every output element comes from the
source sample; and since at least one tail element is always drawn, the
realized tail proportion never falls below 1/N. -/
theorem C10_tail_resample (returns : List ℚ) (thresh target : ℚ)
    (pickNon pickTail : ℕ → ℕ)
    (htail : returns.filter (fun r => r < thresh) ≠ [])
    (hnon : returns.filter (fun r => ¬ r < thresh) ≠ [])
    (ht1 : target ≤ 1) :
    (tailResample returns thresh target pickNon pickTail).length
      = returns.length
    ∧ (tailResample returns thresh target pickNon pickTail).countP
        (fun r => decide (r < thresh)) = nRugOf returns target
    ∧ 1 ≤ (tailResample returns thresh target pickNon pickTail).countP
        (fun r => decide (r < thresh))
    ∧ (∀ x ∈ tailResample returns thresh target pickNon pickTail,
        x ∈ returns)
    ∧ (1 : ℚ) / (returns.length : ℚ)
        ≤ ((tailResample returns thresh target pickNon pickTail).countP
            (fun r => decide (r < thresh)) : ℚ) / (returns.length : ℚ) := by
  have hne : returns ≠ [] := by
    intro hc
    rw [hc] at htail
    simp at htail
  have hrug := nRugOf_le returns target hne ht1
  have hnonmem := choiceList_mem (returns.filter (fun r => ¬ r < thresh))
    (returns.length - nRugOf returns target) pickNon hnon
  have htailmem := choiceList_mem (returns.filter (fun r => r < thresh))
    (nRugOf returns target) pickTail htail
  have hc0 : (choiceList (returns.filter (fun r => ¬ r < thresh))
      (returns.length - nRugOf returns target) pickNon).countP
      (fun r => decide (r < thresh)) = 0 := by
    rw [List.countP_eq_zero]
    intro a ha
    have := (List.mem_filter.mp (hnonmem a ha)).2
    simpa using this
  have hcTail : (choiceList (returns.filter (fun r => r < thresh))
      (nRugOf returns target) pickTail).countP
      (fun r => decide (r < thresh)) = nRugOf returns target := by
    have hall : ∀ a ∈ choiceList (returns.filter (fun r => r < thresh))
        (nRugOf returns target) pickTail, (fun r => decide (r < thresh)) a = true := by
      intro a ha
      have := (List.mem_filter.mp (htailmem a ha)).2
      simpa using this
    rw [List.countP_eq_length.mpr hall, choiceList_length]
  have hTR : tailResample returns thresh target pickNon pickTail
      = choiceList (returns.filter (fun r => ¬ r < thresh))
          (returns.length - nRugOf returns target) pickNon
        ++ choiceList (returns.filter (fun r => r < thresh))
          (nRugOf returns target) pickTail := rfl
  have hcount : (tailResample returns thresh target pickNon pickTail).countP
      (fun r => decide (r < thresh)) = nRugOf returns target := by
    rw [hTR, List.countP_append, hc0, hcTail, Nat.zero_add]
  have hlen : (tailResample returns thresh target pickNon pickTail).length
      = returns.length := by
    rw [hTR, List.length_append, choiceList_length, choiceList_length]
    omega
  refine ⟨hlen, hcount, ?_, ?_, ?_⟩
  · rw [hcount]
    exact le_max_left 1 _
  · intro x hx
    rw [hTR] at hx
    rcases List.mem_append.mp hx with hx' | hx'
    · exact (List.mem_filter.mp (hnonmem x hx')).1
    · exact (List.mem_filter.mp (htailmem x hx')).1
  · rw [hcount]
    have hpos : (0 : ℚ) < (returns.length : ℚ) := by
      exact_mod_cast List.length_pos.mpr hne
    exact (div_le_div_iff_of_pos_right hpos).mpr (by exact_mod_cast le_max_left 1 _)

/-- Witness for C10: a two-value sample with tail threshold -0.5 and target
proportion one half. -/
theorem C10_witness :
    ([-1, 0] : List ℚ).filter (fun r => r < -(1/2)) ≠ []
    ∧ (tailResample [-1, 0] (-(1/2)) (1/2) id id).length = 2
    ∧ 1 ≤ (tailResample [-1, 0] (-(1/2)) (1/2) id id).countP
        (fun r => decide (r < -(1/2))) :=
  ⟨by norm_num,
   (C10_tail_resample [-1, 0] (-(1/2)) (1/2) id id (by norm_num)
      (by norm_num) (by norm_num)).1,
   (C10_tail_resample [-1, 0] (-(1/2)) (1/2) id id (by norm_num)
      (by norm_num) (by norm_num)).2.2.1⟩

end KellyMC
